import Mathlib

/-!
Verification of the kuduraft consensus-metadata store and per-peer
replication buffer.

The definitions below are a shallow embedding of
`src/kudu/consensus/consensus_meta.cc` (ConsensusMetadata) and of the
`BufferData` part of `peer_message_buffer.cc`.  `int64_t` values are
modelled as `Int`; protobuf optional fields as `Option`; fallible
operations return a `Status` alongside the updated state.  `DCHECK`s are
debug-only in the source, so the definitions mirror the release-mode
behaviour (`pb_.current_term()` on an unset field reads the proto3
default `0`, modelled with `Option.getD 0`); the `DCHECK`ed conditions
reappear as theorem hypotheses.

The `previous_vote_history` protobuf map is modelled as an association
list sorted by strictly increasing key, matching the ascending-order
walk performed by the pruning code and the `std::map` copy returned by
the `previous_vote_history()` accessor.
-/

/-- The C++ `kudu::Status`, restricted to the kinds surfaced by the embedded code. -/
inductive Status where
  | ok
  | invalidArgument (msg : String)
  | illegalState (msg : String)
  | incomplete (msg : String)
  | continueRead (msg : String)
  | notFound (msg : String)
  | ioError (msg : String)
deriving Repr, DecidableEq

/-- Embedding of `Status::ok()`. -/
def Status.isOk : Status → Bool
  | .ok => true
  | _ => false

/-- Embedding of `Status::IsIncomplete()`. -/
def Status.isIncomplete : Status → Bool
  | .incomplete _ => true
  | _ => false

/-- The `OpIdPB` protobuf: a `(term, index)` pair identifying a log entry. -/
structure OpId where
  term : Int
  index : Int
deriving Repr, DecidableEq

/-- A replicate message (`ReplicateMsg`); the buffer code only inspects its
`id()`.  A `ReplicateRefPtr` that may be null is `Option ReplicateMsg`. -/
structure ReplicateMsg where
  id : OpId
deriving Repr, DecidableEq

/-- The `BufferData` value type from `peer_message_buffer.h`/`.cc`. -/
structure BufferData where
  msg_buffer_refs : List ReplicateMsg
  last_buffered : Int
  preceding_opid : OpId
  buffered_for_proxying : Bool
  bytes_buffered : Int
deriving Repr, DecidableEq

/-- Embedding of `BufferData::resetBuffer(bool for_proxy, int64_t last_index)`: clears the
messages, sets `last_buffered = last_index`, clears `preceding_opid`
(protobuf-cleared `OpId` reads as term 0 / index 0), records the proxy flag
and zeroes the byte counter.  The receiver is ignored because every field is
overwritten. -/
def BufferData.resetBuffer (_st : BufferData) (for_proxy : Bool) (last_index : Int) :
    BufferData :=
  { msg_buffer_refs := []
    last_buffered := last_index
    preceding_opid := ⟨0, 0⟩
    buffered_for_proxying := for_proxy
    bytes_buffered := 0 }

/-- Modelled from the spec: the default arguments of `resetBuffer` live in
`peer_message_buffer.h`, which is not among the sources; the spec describes
`last_buffered = −1` as the empty-and-unanchored value and a fresh buffer as
non-proxy, so the no-argument call `resetBuffer()` is `resetBuffer false (-1)`. -/
def BufferData.resetBufferDefault (st : BufferData) : BufferData :=
  st.resetBuffer false (-1)

/-- Modelled from the spec: the default-constructed `BufferData` (its field
initializers are in the missing header); the spec gives `last_buffered = −1`
when empty-and-unanchored, a cleared `preceding_opid`, no proxy routing and a
zero byte counter. -/
def initBufferData : BufferData :=
  { msg_buffer_refs := []
    last_buffered := -1
    preceding_opid := ⟨0, 0⟩
    buffered_for_proxying := false
    bytes_buffered := 0 }

/-- Embedding of `BufferData::appendMessage`: rejects a null message with
`InvalidArgument`, rejects a non-contiguous index with `IllegalState`
(leaving the buffer untouched in both cases), otherwise records the new
`last_buffered`, anchors `preceding_opid` to the message's own id when the
buffer was empty, and pushes the message. -/
def BufferData.appendMessage (st : BufferData) (new_message : Option ReplicateMsg) :
    Status × BufferData :=
  match new_message with
  | none => (Status.invalidArgument "Null new message", st)
  | some m =>
    let message_index := m.id.index
    if message_index ≠ st.last_buffered + 1 then
      (Status.illegalState "New message does not match buffer", st)
    else
      let st1 := { st with last_buffered := message_index }
      let st2 :=
        if st1.msg_buffer_refs.isEmpty then
          { st1 with preceding_opid := m.id }
        else st1
      (Status.ok, { st2 with msg_buffer_refs := st2.msg_buffer_refs ++ [m] })

/-- The `ReadContext` passed to a cache read: identifies the target peer; only `route_via_proxy` affects
the buffer state (the other fields are logged). -/
structure ReadContext where
  for_peer_uuid : String
  for_peer_host : String
  for_peer_port : Nat
  route_via_proxy : Bool
deriving Repr, DecidableEq

/-- The `LogCache::ReadOpsStatus` record, the result of `LogCache::ReadOps`: the messages
appended into the caller's vector, the op preceding them, whether the read
stopped before the requested amount, and the cache's status.  The log cache
itself is an out-of-scope collaborator (§1 of the spec). -/
structure ReadOpsResult where
  msgs : List ReplicateMsg
  preceding_op : OpId
  stopped_early : Bool
  status : Status
deriving Repr, DecidableEq

/-- The fill size computed at the top of `BufferData::readFromCache`:
`min(FLAGS_max_buffer_fill_size_bytes,
     max(FLAGS_consensus_max_batch_size_bytes - bytes_buffered, 0))`.
The two gflags are runtime-tunable, so they are parameters. -/
def fillSize (max_buffer_fill_size_bytes consensus_max_batch_size_bytes : Int)
    (st : BufferData) : Int :=
  min max_buffer_fill_size_bytes
    (max (consensus_max_batch_size_bytes - st.bytes_buffered) 0)

/-- The part of `BufferData::readFromCache` after the `LogCache::ReadOps`
call, applied to the cache's result `s`.  `ReadOps` receives
`&msg_buffer_refs` and appends the ops it reads into it; the branches then
mirror the source: on OK, refresh `last_buffered`/`buffered_for_proxying`
from the (now merged) buffer when non-empty, adopt the cache's
`preceding_op` when the buffer was empty on entry, and map `stopped_early`
to a `Continue` status; on a non-OK non-`Incomplete` status, reset the
buffer; on `Incomplete`, leave it alone. -/
def BufferData.readFromCacheResult (st : BufferData) (read_context : ReadContext)
    (s : ReadOpsResult) : Status × BufferData :=
  let buffer_empty := st.msg_buffer_refs.isEmpty
  let st1 := { st with msg_buffer_refs := st.msg_buffer_refs ++ s.msgs }
  if s.status.isOk then
    let st2 :=
      if st1.msg_buffer_refs.isEmpty then st1
      else
        { st1 with
            last_buffered := (st1.msg_buffer_refs.getLastD ⟨⟨0, 0⟩⟩).id.index
            buffered_for_proxying := read_context.route_via_proxy }
    let st3 :=
      if buffer_empty then { st2 with preceding_opid := s.preceding_op } else st2
    if s.stopped_early then
      (Status.continueRead "Stopped before reading all ops from LogCache", st3)
    else
      (s.status, st3)
  else if s.status.isIncomplete then
    (s.status, st1)
  else
    (s.status, st1.resetBufferDefault)

/-- Embedding of `BufferData::readFromCache`: computes the fill size, asks the log cache
for ops starting at `last_buffered`, and processes the result.  The cache is
abstracted as a function from `(start index, fill size)` to its result. -/
def BufferData.readFromCache
    (max_buffer_fill_size_bytes consensus_max_batch_size_bytes : Int)
    (st : BufferData) (read_context : ReadContext)
    (log_cache : Int → Int → ReadOpsResult) : Status × BufferData :=
  st.readFromCacheResult read_context
    (log_cache st.last_buffered
      (fillSize max_buffer_fill_size_bytes consensus_max_batch_size_bytes st))

/-- Embedding of `BufferData::moveDataAndReset`: hands the messages and `preceding_opid`
off, keeping `last_buffered` and the proxy flag so later appends stay
contiguous. -/
def BufferData.moveDataAndReset (st : BufferData) : BufferData × BufferData :=
  let return_data : BufferData :=
    { msg_buffer_refs := st.msg_buffer_refs
      last_buffered := st.last_buffered
      preceding_opid := st.preceding_opid
      buffered_for_proxying := st.buffered_for_proxying
      bytes_buffered := 0 }
  (return_data, st.resetBuffer st.buffered_for_proxying st.last_buffered)

/-- The `PreviousVotePB` protobuf: one vote-history entry. -/
structure PreviousVotePB where
  candidate_uuid : String
  election_term : Int
deriving Repr, DecidableEq

/-- The `LastKnownLeaderPB` protobuf. -/
structure LastKnownLeaderPB where
  uuid : String
  election_term : Int
deriving Repr, DecidableEq

/-- The `RaftConfigPB` protobuf, kept to the parts the embedded operations move around
opaquely (peer uuids and the `opid_index` of the config). -/
structure RaftConfigPB where
  opid_index : Int
  peers : List String
deriving Repr, DecidableEq

/-- The `ConsensusStatePB` protobuf: the snapshot merged by
`MergeCommittedConsensusStatePB`. -/
structure ConsensusStatePB where
  current_term : Int
  leader_uuid : String
  committed_config : RaftConfigPB
  pending_config : Option RaftConfigPB
deriving Repr, DecidableEq

/-- The fields of `ConsensusMetadata` the embedded operations touch: the
persisted protobuf (`pb_`) fields plus the volatile `pending_config_` /
`leader_uuid_`.  `previous_vote_history` is an association list sorted by
strictly increasing term. -/
structure ConsensusMetadata where
  current_term : Option Int
  voted_for : Option String
  previous_vote_history : List (Int × PreviousVotePB)
  last_known_leader : LastKnownLeaderPB
  last_pruned_term : Int
  committed_config : Option RaftConfigPB
  pending_config : Option RaftConfigPB
  leader_uuid : String
deriving Repr, DecidableEq

/-- The `ConsensusMetadata` constructor: `last_known_leader` is explicitly
set to `{uuid = "", election_term = 0}` and `last_pruned_term` to `−1`; the
other protobuf fields start unset and the volatile state empty. -/
def initCMeta : ConsensusMetadata :=
  { current_term := none
    voted_for := none
    previous_vote_history := []
    last_known_leader := ⟨"", 0⟩
    last_pruned_term := -1
    committed_config := none
    pending_config := none
    leader_uuid := "" }

/-- Modelled from the spec: `kMinimumTerm` is declared in
`opid_util.h`, which is not among the sources; the spec says the minimum
term constant is "0 or 1 per protocol", and the facts proved below only use
concrete terms that are at least 1, valid under either choice.  We take 0. -/
def kMinimumTerm : Int := 0

/-- Embedding of `ConsensusMetadata::set_current_term` (the `DCHECK_GE(term,
kMinimumTerm)` is debug-only; the setter is unconditional). -/
def ConsensusMetadata.set_current_term (st : ConsensusMetadata) (term : Int) :
    ConsensusMetadata :=
  { st with current_term := some term }

/-- Embedding of `ConsensusMetadata::clear_voted_for`. -/
def ConsensusMetadata.clear_voted_for (st : ConsensusMetadata) : ConsensusMetadata :=
  { st with voted_for := none }

/-- Embedding of `InsertIfNotPresent` on the history map: inserts `(k, v)` unless the key
is already present (in which case the existing entry is kept), maintaining
the ascending key order. -/
def insertIfNotPresent : List (Int × PreviousVotePB) → Int → PreviousVotePB →
    List (Int × PreviousVotePB)
  | [], k, v => [(k, v)]
  | (k0, v0) :: rest, k, v =>
    if k < k0 then (k, v) :: (k0, v0) :: rest
    else if k = k0 then (k0, v0) :: rest
    else (k0, v0) :: insertIfNotPresent rest k v

/-- Step 1 of `populate_previous_vote_history`: walk the map in ascending
key order, dropping every entry whose key is `≤ last_known_leader_term` and
remembering the last dropped key as the new `last_pruned_term` (the incoming
value is kept when nothing is dropped, matching the `end_it != begin_it`
guard in the source). -/
def pruneUpToLeaderTerm : List (Int × PreviousVotePB) → Int → Int →
    List (Int × PreviousVotePB) × Int
  | [], _, last_pruned => ([], last_pruned)
  | (k, v) :: rest, leader_term, last_pruned =>
    if k ≤ leader_term then pruneUpToLeaderTerm rest leader_term k
    else ((k, v) :: rest, last_pruned)

/-- Step 2 of `populate_previous_vote_history`: if the map still holds more
than `VOTE_HISTORY_MAX_SIZE` entries, erase the smallest-key entry (the
first in ascending order) and record its key as `last_pruned_term`. -/
def pruneToCapacity (maxSize : Nat) (hist : List (Int × PreviousVotePB))
    (last_pruned : Int) : List (Int × PreviousVotePB) × Int :=
  if maxSize < hist.length then
    match hist with
    | [] => ([], last_pruned)
    | (k, _) :: rest => (rest, k)
  else (hist, last_pruned)

/-- Embedding of `ConsensusMetadata::populate_previous_vote_history`:
insert-if-not-present, then prune up to the last known leader's term, then
prune to capacity.  `VOTE_HISTORY_MAX_SIZE` is a compile-time constant
declared in `consensus_meta.h` (not among the sources), so it is a
parameter. -/
def ConsensusMetadata.populate_previous_vote_history (st : ConsensusMetadata)
    (maxSize : Nat) (prev_vote : PreviousVotePB) : ConsensusMetadata :=
  let hist1 := insertIfNotPresent st.previous_vote_history prev_vote.election_term prev_vote
  let p1 := pruneUpToLeaderTerm hist1 st.last_known_leader.election_term st.last_pruned_term
  let p2 := pruneToCapacity maxSize p1.1 p1.2
  { st with previous_vote_history := p2.1, last_pruned_term := p2.2 }

/-- Embedding of `ConsensusMetadata::set_voted_for`: records the vote and populates the
history with `{candidate_uuid = uuid, election_term = current_term}`
(release-mode `pb_.current_term()` reads 0 when the term is unset). -/
def ConsensusMetadata.set_voted_for (st : ConsensusMetadata) (maxSize : Nat)
    (uuid : String) : ConsensusMetadata :=
  let st1 := { st with voted_for := some uuid }
  st1.populate_previous_vote_history maxSize ⟨uuid, st1.current_term.getD 0⟩

/-- Embedding of `ConsensusMetadata::set_leader_uuid` (the active-role recomputation has
no observable effect on the fields modelled here). -/
def ConsensusMetadata.set_leader_uuid (st : ConsensusMetadata) (uuid : String) :
    ConsensusMetadata :=
  { st with leader_uuid := uuid }

/-- Embedding of `ConsensusMetadata::set_committed_config`. -/
def ConsensusMetadata.set_committed_config (st : ConsensusMetadata)
    (config : RaftConfigPB) : ConsensusMetadata :=
  { st with committed_config := some config }

/-- Embedding of `ConsensusMetadata::clear_pending_config`. -/
def ConsensusMetadata.clear_pending_config (st : ConsensusMetadata) :
    ConsensusMetadata :=
  { st with pending_config := none }

/-- Embedding of `ConsensusMetadata::set_pending_config`. -/
def ConsensusMetadata.set_pending_config (st : ConsensusMetadata)
    (config : RaftConfigPB) : ConsensusMetadata :=
  { st with pending_config := some config }

/-- Embedding of `ConsensusMetadata::MergeCommittedConsensusStatePB`: raise the local
term and clear the vote when the remote committed term is strictly newer;
then unconditionally clear `leader_uuid`, adopt the remote committed config
and clear any pending config. -/
def ConsensusMetadata.MergeCommittedConsensusStatePB (st : ConsensusMetadata)
    (cstate : ConsensusStatePB) : ConsensusMetadata :=
  let st1 :=
    if st.current_term.getD 0 < cstate.current_term then
      (st.set_current_term cstate.current_term).clear_voted_for
    else st
  ((st1.set_leader_uuid "").set_committed_config cstate.committed_config).clear_pending_config

/-- Embedding of `ConsensusMetadata::sync_last_known_leader`: a no-op returning OK when
`leader_uuid_` is empty, or when a compare-and-swap term is supplied and
differs from the current term; otherwise it points `last_known_leader` at
the current leader and term and flushes.  `Flush()` performs filesystem I/O
and does not change any field modelled here, so it is abstracted by
`flush_status`, the status it would return. -/
def ConsensusMetadata.sync_last_known_leader (st : ConsensusMetadata)
    (flush_status : Status) (cas_term : Option Int) : Status × ConsensusMetadata :=
  if st.leader_uuid = "" then (Status.ok, st)
  else
    let current_term := st.current_term.getD 0
    match cas_term with
    | some t =>
      if current_term ≠ t then (Status.ok, st)
      else (flush_status,
        { st with last_known_leader := ⟨st.leader_uuid, current_term⟩ })
    | none => (flush_status,
        { st with last_known_leader := ⟨st.leader_uuid, current_term⟩ })

/-- The mutators quantified over by the invariant claims. -/
inductive CMetaOp where
  | setCurrentTerm (term : Int)
  | setVotedFor (uuid : String)
  | clearVotedFor
deriving Repr, DecidableEq

/-- Apply one mutator. -/
def applyCMetaOp (maxSize : Nat) (st : ConsensusMetadata) : CMetaOp → ConsensusMetadata
  | .setCurrentTerm t => st.set_current_term t
  | .setVotedFor u => st.set_voted_for maxSize u
  | .clearVotedFor => st.clear_voted_for

/-- Apply a sequence of mutators in order. -/
def applyCMetaOps (maxSize : Nat) (st : ConsensusMetadata) (ops : List CMetaOp) :
    ConsensusMetadata :=
  ops.foldl (applyCMetaOp maxSize) st

/-- The condition under which C1 quantifies its sequences: only
`set_current_term` and `set_voted_for` calls, each `set_voted_for` with a
non-empty uuid while a current term is set. -/
def c1ValidOps (maxSize : Nat) : ConsensusMetadata → List CMetaOp → Bool
  | _, [] => true
  | st, op :: rest =>
    (match op with
     | .setCurrentTerm _ => true
     | .setVotedFor u => decide (u ≠ "") && st.current_term.isSome
     | .clearVotedFor => false)
    && c1ValidOps maxSize (applyCMetaOp maxSize st op) rest

/-- The log indices of a list of buffered messages. -/
def msgIndices (l : List ReplicateMsg) : List Int :=
  l.map (fun m => m.id.index)

/-- The contiguous range of integers `[a, b]` (empty when `b < a`). -/
def intRange (a b : Int) : List Int :=
  (List.range (b + 1 - a).toNat).map (fun (i : Nat) => a + (i : Int))

/-- The log cache's contract for a read that started at index `start`
(§2/§5 of the spec: the cache produces log records in index order beginning
right after `start`, together with the op at `start` as `preceding_op`; on a
non-OK status nothing is appended to the caller's vector). -/
def cacheContract (start : Int) (s : ReadOpsResult) : Bool :=
  if s.status.isOk then
    decide (msgIndices s.msgs = intRange (start + 1) (start + s.msgs.length))
      && decide (s.preceding_op.index = start)
  else
    s.msgs.isEmpty

/-- One step of an append / cache-read interleaving on a `BufferData`. -/
inductive BufOp where
  | append (new_message : Option ReplicateMsg)
  | readCache (read_context : ReadContext) (s : ReadOpsResult)
deriving Repr

/-- Apply one buffer operation (keeping only the resulting state). -/
def applyBufOp (st : BufferData) : BufOp → BufferData
  | .append m => (st.appendMessage m).2
  | .readCache ctx s => (st.readFromCacheResult ctx s).2

/-- Apply an interleaving in order. -/
def applyBufOps (st : BufferData) (ops : List BufOp) : BufferData :=
  ops.foldl applyBufOp st

/-- An interleaving is valid when every cache read's result honours the log
cache's contract at the state where it is issued (appends are
unconstrained: a failed append leaves the buffer unchanged). -/
def validBufRun (st : BufferData) : List BufOp → Bool
  | [] => true
  | op :: rest =>
    (match op with
     | .append _ => true
     | .readCache _ s => cacheContract st.last_buffered s)
    && validBufRun (applyBufOp st op) rest

/-- The buffer-contiguity invariant that actually holds: a non-empty buffer
holds exactly one contiguous index range ending at `last_buffered`, starting
either at `preceding_opid.index + 1` (cache-seeded) or at
`preceding_opid.index` itself (seeded by `appendMessage` into an empty
buffer, which anchors `preceding_opid` at the first message's own id). -/
def bufInv (st : BufferData) : Prop :=
  st.msg_buffer_refs = [] ∨
  msgIndices st.msg_buffer_refs = intRange st.preceding_opid.index st.last_buffered ∨
  msgIndices st.msg_buffer_refs = intRange (st.preceding_opid.index + 1) st.last_buffered

/-- The history keys are in strictly increasing order. -/
def keysSorted (l : List (Int × PreviousVotePB)) : Prop :=
  List.Pairwise (fun a b => a.1 < b.1) l

/-- The C1 invariant on a metadata state: sorted history, size within the
capacity bound, and every key strictly above the last known leader's term. -/
def cmetaInv (maxSize : Nat) (st : ConsensusMetadata) : Prop :=
  keysSorted st.previous_vote_history ∧
  st.previous_vote_history.length ≤ maxSize ∧
  ∀ e ∈ st.previous_vote_history, st.last_known_leader.election_term < e.1

/-- Lookup in the history association list. -/
def histLookup (t : Int) : List (Int × PreviousVotePB) → Option PreviousVotePB
  | [] => none
  | (k, v) :: rest => if k = t then some v else histLookup t rest

/-- The per-operation discipline under which the voted-for/history
correspondence is an invariant: `set_current_term` is only called with the
vote cleared; `set_voted_for` uses a non-empty uuid while the current term
is set, positive, and strictly greater than every recorded history key (in
particular each term is voted at most once); `clear_voted_for` is free. -/
def c9OpOk (st : ConsensusMetadata) : CMetaOp → Bool
  | .setCurrentTerm _ => st.voted_for.isNone
  | .setVotedFor u =>
    decide (u ≠ "") &&
    (match st.current_term with
     | none => false
     | some t => decide (1 ≤ t) && st.previous_vote_history.all fun e => decide (e.1 < t))
  | .clearVotedFor => true

/-- A run obeys the C9 discipline when every operation does, at the state
where it executes. -/
def c9ValidOps (maxSize : Nat) : ConsensusMetadata → List CMetaOp → Bool
  | _, [] => true
  | st, op :: rest => c9OpOk st op && c9ValidOps maxSize (applyCMetaOp maxSize st op) rest

/-- The voted-for/history correspondence, with the auxiliary facts needed to
push it through `set_voted_for`'s pruning. -/
def c9Inv (st : ConsensusMetadata) : Prop :=
  keysSorted st.previous_vote_history ∧
  st.last_known_leader.election_term = 0 ∧
  (∀ e ∈ st.previous_vote_history, 1 ≤ e.1) ∧
  ∀ u, st.voted_for = some u →
    ∃ t, st.current_term = some t ∧
      histLookup t st.previous_vote_history = some ⟨u, t⟩

/-- Concrete state used to witness the general clause of the C4 theorem. -/
def c4WitnessState : ConsensusMetadata :=
  { initCMeta with
      previous_vote_history := [(1, ⟨"a", 1⟩), (2, ⟨"b", 2⟩)] }

/-- Concrete state used to witness the C10 theorem. -/
def c10WitnessState : ConsensusMetadata :=
  { initCMeta with
      current_term := some 5
      voted_for := some "x"
      leader_uuid := "L" }

/-- Concrete state used to witness the C6 theorem. -/
def c6WitnessState : ConsensusMetadata :=
  { initCMeta with
      current_term := some 4
      leader_uuid := "L" }

lemma intRange_eq_nil (a b : Int) (h : b < a) : intRange a b = [] := by
  unfold intRange
  have : (b + 1 - a).toNat = 0 := by omega
  simp [this]

lemma intRange_self (a : Int) : intRange a a = [a] := by
  unfold intRange
  have : (a + 1 - a).toNat = 1 := by omega
  simp [this, List.range_succ]

lemma intRange_length (a b : Int) : (intRange a b).length = (b + 1 - a).toNat := by
  simp [intRange]

lemma intRange_ne_nil (a b : Int) (h : a ≤ b) : intRange a b ≠ [] := by
  intro hnil
  have := intRange_length a b
  rw [hnil] at this
  simp at this
  omega

lemma le_of_intRange_ne_nil {a b : Int} (h : intRange a b ≠ []) : a ≤ b := by
  by_contra hab
  exact h (intRange_eq_nil a b (by omega))

lemma intRange_append (a b c : Int) (h1 : a ≤ b + 1) (h2 : b ≤ c) :
    intRange a b ++ intRange (b + 1) c = intRange a c := by
  unfold intRange
  have hn : (c + 1 - a).toNat = (b + 1 - a).toNat + (c - b).toNat := by omega
  have h3 : c + 1 - (b + 1) = c - b := by ring
  rw [h3, hn, List.range_add, List.map_append, List.map_map]
  congr 1
  apply List.map_congr_left
  intro i _
  simp only [Function.comp_apply]
  push_cast
  omega

lemma intRange_concat (a b : Int) (h : a ≤ b + 1) :
    intRange a (b + 1) = intRange a b ++ [b + 1] := by
  rw [← intRange_append a b (b + 1) h (by omega), intRange_self]

lemma intRange_getLast? (a b : Int) (h : a ≤ b) :
    (intRange a b).getLast? = some b := by
  rcases eq_or_lt_of_le h with heq | hlt
  · subst heq; rw [intRange_self]; rfl
  · have hb : b = (b - 1) + 1 := by omega
    rw [hb, intRange_concat a (b - 1) (by omega), List.getLast?_concat]

lemma getLastD_map_index (l : List ReplicateMsg) (d : ReplicateMsg) (hl : l ≠ []) :
    (l.getLastD d).id.index = (msgIndices l).getLastD 0 := by
  induction l with
  | nil => exact absurd rfl hl
  | cons x xs ih =>
    cases xs with
    | nil => simp [msgIndices]
    | cons y ys =>
      simp only [List.getLastD_cons, msgIndices, List.map_cons] at *
      exact ih (by simp)

lemma getLastD_eq_of_getLast? {l : List Int} {b : Int} (h : l.getLast? = some b)
    (d : Int) : l.getLastD d = b := by
  cases l with
  | nil => simp at h
  | cons x xs => simp [List.getLastD_eq_getLast?, h]

lemma msgIndices_append (l1 l2 : List ReplicateMsg) :
    msgIndices (l1 ++ l2) = msgIndices l1 ++ msgIndices l2 := by
  simp [msgIndices]

lemma msgIndices_eq_nil_iff (l : List ReplicateMsg) :
    msgIndices l = [] ↔ l = [] := by
  simp [msgIndices]

lemma msgIndices_singleton (m : ReplicateMsg) : msgIndices [m] = [m.id.index] := by
  simp [msgIndices]

lemma appendMessage_none (st : BufferData) :
    st.appendMessage none = (Status.invalidArgument "Null new message", st) := rfl

lemma appendMessage_gap (st : BufferData) (msg : ReplicateMsg)
    (hidx : msg.id.index ≠ st.last_buffered + 1) :
    st.appendMessage (some msg) =
      (Status.illegalState "New message does not match buffer", st) := by
  simp [BufferData.appendMessage, hidx]

lemma appendMessage_ok (st : BufferData) (msg : ReplicateMsg)
    (hidx : msg.id.index = st.last_buffered + 1) :
    st.appendMessage (some msg) =
      (Status.ok,
        { st with
            last_buffered := msg.id.index
            preceding_opid :=
              if st.msg_buffer_refs.isEmpty then msg.id else st.preceding_opid
            msg_buffer_refs := st.msg_buffer_refs ++ [msg] }) := by
  by_cases he : st.msg_buffer_refs.isEmpty <;>
    simp [BufferData.appendMessage, hidx, he]

lemma bufInv_append (st : BufferData) (m : Option ReplicateMsg) (h : bufInv st) :
    bufInv (st.appendMessage m).2 := by
  match m with
  | none => rw [appendMessage_none]; exact h
  | some msg =>
    by_cases hidx : msg.id.index = st.last_buffered + 1
    · rw [appendMessage_ok st msg hidx]
      by_cases hne : st.msg_buffer_refs = []
      · -- first message into an empty buffer: anchored at its own id
        refine Or.inr (Or.inl ?_)
        simp [hne, msgIndices_singleton, intRange_self]
      · have hmne : msgIndices st.msg_buffer_refs ≠ [] := by
          simpa [msgIndices_eq_nil_iff] using hne
        rcases h with h0 | hrange | hrange
        · exact absurd h0 hne
        · refine Or.inr (Or.inl ?_)
          have hle : st.preceding_opid.index ≤ st.last_buffered := by
            rw [hrange] at hmne
            exact le_of_intRange_ne_nil hmne
          simp only [List.isEmpty_iff, hne, if_false]
          rw [msgIndices_append, hrange, msgIndices_singleton, hidx,
            intRange_concat _ _ (by omega)]
        · refine Or.inr (Or.inr ?_)
          have hle : st.preceding_opid.index + 1 ≤ st.last_buffered := by
            rw [hrange] at hmne
            exact le_of_intRange_ne_nil hmne
          simp only [List.isEmpty_iff, hne, if_false]
          rw [msgIndices_append, hrange, msgIndices_singleton, hidx,
            intRange_concat _ _ (by omega)]
    · rw [appendMessage_gap st msg hidx]
      exact h

lemma readFromCacheResult_err (st : BufferData) (ctx : ReadContext)
    (s : ReadOpsResult) (hok : s.status.isOk = false)
    (hinc : s.status.isIncomplete = false) :
    st.readFromCacheResult ctx s =
      (s.status,
        ({ st with msg_buffer_refs := st.msg_buffer_refs ++ s.msgs } :
          BufferData).resetBufferDefault) := by
  simp [BufferData.readFromCacheResult, hok, hinc]

lemma readFromCacheResult_incomplete (st : BufferData) (ctx : ReadContext)
    (s : ReadOpsResult) (hinc : s.status.isIncomplete = true) :
    st.readFromCacheResult ctx s =
      (s.status, { st with msg_buffer_refs := st.msg_buffer_refs ++ s.msgs }) := by
  have hok : s.status.isOk = false := by
    cases hs : s.status <;> simp [Status.isOk, Status.isIncomplete, hs] at hinc ⊢
  simp [BufferData.readFromCacheResult, hok, hinc]

lemma readFromCacheResult_ok (st : BufferData) (ctx : ReadContext)
    (s : ReadOpsResult) (hok : s.status.isOk = true) :
    st.readFromCacheResult ctx s =
      (if s.stopped_early then
        Status.continueRead "Stopped before reading all ops from LogCache"
       else s.status,
       { st with
          msg_buffer_refs := st.msg_buffer_refs ++ s.msgs
          last_buffered :=
            if (st.msg_buffer_refs ++ s.msgs).isEmpty then st.last_buffered
            else ((st.msg_buffer_refs ++ s.msgs).getLastD ⟨⟨0, 0⟩⟩).id.index
          buffered_for_proxying :=
            if (st.msg_buffer_refs ++ s.msgs).isEmpty then st.buffered_for_proxying
            else ctx.route_via_proxy
          preceding_opid :=
            if st.msg_buffer_refs.isEmpty then s.preceding_op
            else st.preceding_opid }) := by
  by_cases h1 : (st.msg_buffer_refs ++ s.msgs).isEmpty <;>
    by_cases h2 : st.msg_buffer_refs.isEmpty <;>
      by_cases h3 : s.stopped_early <;>
        simp [BufferData.readFromCacheResult, hok, h1, h2, h3]

lemma bufInv_read (st : BufferData) (ctx : ReadContext) (s : ReadOpsResult)
    (hc : cacheContract st.last_buffered s = true) (h : bufInv st) :
    bufInv (st.readFromCacheResult ctx s).2 := by
  by_cases hok : s.status.isOk = true
  · unfold cacheContract at hc
    rw [if_pos hok] at hc
    simp only [Bool.and_eq_true, decide_eq_true_eq] at hc
    obtain ⟨hmsg, hpre⟩ := hc
    rw [readFromCacheResult_ok st ctx s hok]
    by_cases hse : st.msg_buffer_refs = []
    · by_cases hsm : s.msgs = []
      · left
        simp [hse, hsm]
      · -- cache-seeded buffer
        have hmergene : (st.msg_buffer_refs ++ s.msgs) ≠ [] := by simp [hse, hsm]
        have hn1 : (1 : Int) ≤ s.msgs.length := by
          have : s.msgs.length ≠ 0 := by simpa using hsm
          omega
        have hlast :
            ((st.msg_buffer_refs ++ s.msgs).getLastD ⟨⟨0, 0⟩⟩).id.index =
              st.last_buffered + s.msgs.length := by
          rw [getLastD_map_index _ _ hmergene]
          have : msgIndices (st.msg_buffer_refs ++ s.msgs) =
              intRange (st.last_buffered + 1) (st.last_buffered + s.msgs.length) := by
            rw [msgIndices_append, hmsg]
            simp [hse, msgIndices]
          rw [this]
          exact getLastD_eq_of_getLast? (intRange_getLast? _ _ (by omega)) 0
        refine Or.inr (Or.inr ?_)
        rw [hse, List.nil_append] at hlast
        simp only [List.isEmpty_iff, hse, List.nil_append, List.isEmpty_nil,
          if_true, hsm, if_false]
        rw [hlast, hpre]
        exact hmsg
    · -- buffer already non-empty: its range start is unchanged
      have hmne : msgIndices st.msg_buffer_refs ≠ [] := by
        simpa [msgIndices_eq_nil_iff] using hse
      have hmergene : (st.msg_buffer_refs ++ s.msgs) ≠ [] := by simp [hse]
      have hn0 : (0 : Int) ≤ s.msgs.length := by positivity
      rcases h with h0 | hrange | hrange
      · exact absurd h0 hse
      · have hle : st.preceding_opid.index ≤ st.last_buffered := by
          rw [hrange] at hmne
          exact le_of_intRange_ne_nil hmne
        have hmerged : msgIndices (st.msg_buffer_refs ++ s.msgs) =
            intRange st.preceding_opid.index (st.last_buffered + s.msgs.length) := by
          rw [msgIndices_append, hrange, hmsg]
          exact intRange_append _ _ _ (by omega) (by omega)
        have hlast :
            ((st.msg_buffer_refs ++ s.msgs).getLastD ⟨⟨0, 0⟩⟩).id.index =
              st.last_buffered + s.msgs.length := by
          rw [getLastD_map_index _ _ hmergene, hmerged]
          exact getLastD_eq_of_getLast? (intRange_getLast? _ _ (by omega)) 0
        refine Or.inr (Or.inl ?_)
        simp only [List.isEmpty_iff, hmergene, if_false, hse]
        rw [hlast]
        exact hmerged
      · have hle : st.preceding_opid.index + 1 ≤ st.last_buffered := by
          rw [hrange] at hmne
          exact le_of_intRange_ne_nil hmne
        have hmerged : msgIndices (st.msg_buffer_refs ++ s.msgs) =
            intRange (st.preceding_opid.index + 1)
              (st.last_buffered + s.msgs.length) := by
          rw [msgIndices_append, hrange, hmsg]
          exact intRange_append _ _ _ (by omega) (by omega)
        have hlast :
            ((st.msg_buffer_refs ++ s.msgs).getLastD ⟨⟨0, 0⟩⟩).id.index =
              st.last_buffered + s.msgs.length := by
          rw [getLastD_map_index _ _ hmergene, hmerged]
          exact getLastD_eq_of_getLast? (intRange_getLast? _ _ (by omega)) 0
        refine Or.inr (Or.inr ?_)
        simp only [List.isEmpty_iff, hmergene, if_false, hse]
        rw [hlast]
        exact hmerged
  · -- non-OK: the cache appended nothing
    have hok' : s.status.isOk = false := by simpa using hok
    unfold cacheContract at hc
    rw [if_neg (by simp [hok'])] at hc
    have hsm : s.msgs = [] := by simpa using hc
    by_cases hinc : s.status.isIncomplete = true
    · rw [readFromCacheResult_incomplete st ctx s hinc]
      simpa [hsm] using h
    · rw [readFromCacheResult_err st ctx s hok' (by simpa using hinc)]
      left
      simp [BufferData.resetBufferDefault, BufferData.resetBuffer]

/-- The run-level invariant: any valid interleaving started from a state
satisfying `bufInv` ends in a state satisfying `bufInv`. -/
lemma bufInv_run (ops : List BufOp) :
    ∀ st : BufferData, bufInv st → validBufRun st ops = true →
      bufInv (applyBufOps st ops) := by
  induction ops with
  | nil => intro st h _; exact h
  | cons op rest ih =>
    intro st h hv
    simp only [validBufRun, Bool.and_eq_true] at hv
    obtain ⟨hop, hrest⟩ := hv
    have hstep : bufInv (applyBufOp st op) := by
      cases op with
      | append m => exact bufInv_append st m h
      | readCache ctx s => exact bufInv_read st ctx s hop h
    simpa [applyBufOps, applyBufOp] using ih (applyBufOp st op) hstep hrest

lemma insertIfNotPresent_mem {l : List (Int × PreviousVotePB)} {k : Int}
    {v : PreviousVotePB} {x : Int × PreviousVotePB}
    (hx : x ∈ insertIfNotPresent l k v) : x ∈ l ∨ x = (k, v) := by
  induction l with
  | nil =>
    simp only [insertIfNotPresent, List.mem_singleton] at hx
    exact Or.inr hx
  | cons p t ih =>
    obtain ⟨k0, v0⟩ := p
    by_cases h1 : k < k0
    · simp only [insertIfNotPresent, if_pos h1, List.mem_cons] at hx
      rcases hx with rfl | hx'
      · exact Or.inr rfl
      · exact Or.inl (List.mem_cons.mpr hx')
    · by_cases h2 : k = k0
      · simp only [insertIfNotPresent, if_neg h1, if_pos h2] at hx
        exact Or.inl hx
      · simp only [insertIfNotPresent, if_neg h1, if_neg h2, List.mem_cons] at hx
        rcases hx with rfl | hx'
        · exact Or.inl (List.mem_cons_self _ _)
        · rcases ih hx' with hy | hy
          · exact Or.inl (List.mem_cons_of_mem _ hy)
          · exact Or.inr hy

lemma insertIfNotPresent_sorted {l : List (Int × PreviousVotePB)}
    (hs : keysSorted l) (k : Int) (v : PreviousVotePB) :
    keysSorted (insertIfNotPresent l k v) := by
  induction l with
  | nil => simp [insertIfNotPresent, keysSorted]
  | cons p t ih =>
    obtain ⟨k0, v0⟩ := p
    simp only [keysSorted, List.pairwise_cons] at hs
    obtain ⟨hhead, htail⟩ := hs
    by_cases h1 : k < k0
    · simp only [insertIfNotPresent, if_pos h1, keysSorted, List.pairwise_cons]
      refine ⟨?_, hhead, htail⟩
      intro y hy
      rcases List.mem_cons.mp hy with rfl | hy'
      · exact h1
      · exact lt_trans h1 (hhead y hy')
    · by_cases h2 : k = k0
      · simp only [insertIfNotPresent, if_neg h1, if_pos h2, keysSorted,
          List.pairwise_cons]
        exact ⟨hhead, htail⟩
      · simp only [insertIfNotPresent, if_neg h1, if_neg h2, keysSorted,
          List.pairwise_cons]
        refine ⟨?_, ih htail⟩
        intro y hy
        rcases insertIfNotPresent_mem hy with hy' | rfl
        · exact hhead y hy'
        · simp only
          omega

lemma insertIfNotPresent_length (l : List (Int × PreviousVotePB)) (k : Int)
    (v : PreviousVotePB) :
    (insertIfNotPresent l k v).length ≤ l.length + 1 := by
  induction l with
  | nil => simp [insertIfNotPresent]
  | cons p t ih =>
    obtain ⟨k0, v0⟩ := p
    by_cases h1 : k < k0
    · simp [insertIfNotPresent, if_pos h1]
    · by_cases h2 : k = k0
      · simp [insertIfNotPresent, if_neg h1, if_pos h2]
      · simp only [insertIfNotPresent, if_neg h1, if_neg h2, List.length_cons]
        omega

lemma insertIfNotPresent_append {l : List (Int × PreviousVotePB)} (k : Int)
    (v : PreviousVotePB) (hs : ∀ x ∈ l, x.1 < k) :
    insertIfNotPresent l k v = l ++ [(k, v)] := by
  induction l with
  | nil => rfl
  | cons p t ih =>
    obtain ⟨k0, v0⟩ := p
    have hk0 : k0 < k := hs (k0, v0) (List.mem_cons_self _ _)
    simp only [insertIfNotPresent, if_neg (by omega : ¬k < k0),
      if_neg (by omega : ¬k = k0), List.cons_append, List.cons.injEq, true_and]
    exact ih fun x hx => hs x (List.mem_cons_of_mem _ hx)

lemma pruneUpToLeaderTerm_mem {l : List (Int × PreviousVotePB)} {t lp : Int}
    {x : Int × PreviousVotePB} (hx : x ∈ (pruneUpToLeaderTerm l t lp).1) :
    x ∈ l := by
  induction l generalizing lp with
  | nil => simp [pruneUpToLeaderTerm] at hx
  | cons p rest ih =>
    obtain ⟨k, v⟩ := p
    by_cases hk : k ≤ t
    · simp only [pruneUpToLeaderTerm, if_pos hk] at hx
      exact List.mem_cons_of_mem _ (ih hx)
    · simpa only [pruneUpToLeaderTerm, if_neg hk] using hx

lemma pruneUpToLeaderTerm_sorted {l : List (Int × PreviousVotePB)} {t lp : Int}
    (hs : keysSorted l) : keysSorted (pruneUpToLeaderTerm l t lp).1 := by
  induction l generalizing lp with
  | nil => simpa [pruneUpToLeaderTerm] using hs
  | cons p rest ih =>
    obtain ⟨k, v⟩ := p
    simp only [keysSorted, List.pairwise_cons] at hs
    by_cases hk : k ≤ t
    · simp only [pruneUpToLeaderTerm, if_pos hk]
      exact ih hs.2
    · simp only [pruneUpToLeaderTerm, if_neg hk, keysSorted, List.pairwise_cons]
      exact hs

lemma pruneUpToLeaderTerm_gt {l : List (Int × PreviousVotePB)} {t lp : Int}
    (hs : keysSorted l) :
    ∀ x ∈ (pruneUpToLeaderTerm l t lp).1, t < x.1 := by
  induction l generalizing lp with
  | nil => intro x hx; simp [pruneUpToLeaderTerm] at hx
  | cons p rest ih =>
    obtain ⟨k, v⟩ := p
    simp only [keysSorted, List.pairwise_cons] at hs
    by_cases hk : k ≤ t
    · simp only [pruneUpToLeaderTerm, if_pos hk]
      exact ih hs.2
    · simp only [pruneUpToLeaderTerm, if_neg hk]
      intro x hx
      rcases List.mem_cons.mp hx with rfl | hx'
      · omega
      · exact lt_trans (by omega) (hs.1 x hx')

lemma pruneUpToLeaderTerm_length (l : List (Int × PreviousVotePB)) (t lp : Int) :
    (pruneUpToLeaderTerm l t lp).1.length ≤ l.length := by
  induction l generalizing lp with
  | nil => simp [pruneUpToLeaderTerm]
  | cons p rest ih =>
    obtain ⟨k, v⟩ := p
    by_cases hk : k ≤ t
    · simp only [pruneUpToLeaderTerm, if_pos hk, List.length_cons]
      exact le_trans (ih _) (by omega)
    · simp [pruneUpToLeaderTerm, if_neg hk]

lemma pruneUpToLeaderTerm_id {l : List (Int × PreviousVotePB)} {t lp : Int}
    (h : ∀ x ∈ l, t < x.1) : pruneUpToLeaderTerm l t lp = (l, lp) := by
  cases l with
  | nil => rfl
  | cons p rest =>
    obtain ⟨k, v⟩ := p
    have : t < k := h (k, v) (List.mem_cons_self _ _)
    simp [pruneUpToLeaderTerm, if_neg (by omega : ¬k ≤ t)]

lemma cmetaInv_populate (maxSize : Nat) (st : ConsensusMetadata)
    (pv : PreviousVotePB) (h : cmetaInv maxSize st) :
    cmetaInv maxSize (st.populate_previous_vote_history maxSize pv) := by
  obtain ⟨hs, hl, _⟩ := h
  simp only [ConsensusMetadata.populate_previous_vote_history, pruneToCapacity]
  have hs1 : keysSorted (insertIfNotPresent st.previous_vote_history
      pv.election_term pv) := insertIfNotPresent_sorted hs _ _
  set p1 := pruneUpToLeaderTerm
    (insertIfNotPresent st.previous_vote_history pv.election_term pv)
    st.last_known_leader.election_term st.last_pruned_term with hp1
  have hs2 : keysSorted p1.1 := pruneUpToLeaderTerm_sorted hs1
  have hgt2 : ∀ x ∈ p1.1, st.last_known_leader.election_term < x.1 :=
    pruneUpToLeaderTerm_gt hs1
  have hl2 : p1.1.length ≤ maxSize + 1 := by
    refine le_trans (pruneUpToLeaderTerm_length _ _ _) ?_
    refine le_trans (insertIfNotPresent_length _ _ _) ?_
    omega
  by_cases hcap : maxSize < p1.1.length
  · rw [if_pos hcap]
    cases hne : p1.1 with
    | nil => rw [hne] at hcap; simp at hcap
    | cons hd tl =>
      obtain ⟨k, v⟩ := hd
      rw [hne] at hs2 hgt2 hl2
      dsimp only
      simp only [keysSorted, List.pairwise_cons] at hs2
      refine ⟨hs2.2, ?_, ?_⟩
      · simp only [List.length_cons] at hl2
        show tl.length ≤ maxSize
        omega
      · intro e he
        exact hgt2 e (List.mem_cons_of_mem _ he)
  · rw [if_neg hcap]
    refine ⟨hs2, ?_, hgt2⟩
    show p1.1.length ≤ maxSize
    omega

lemma cmetaInv_op (maxSize : Nat) (st : ConsensusMetadata) (op : CMetaOp)
    (h : cmetaInv maxSize st) : cmetaInv maxSize (applyCMetaOp maxSize st op) := by
  cases op with
  | setCurrentTerm t => exact h
  | clearVotedFor => exact h
  | setVotedFor u =>
    exact cmetaInv_populate maxSize _ _ h

lemma cmetaInv_run (maxSize : Nat) (ops : List CMetaOp) :
    ∀ st : ConsensusMetadata, cmetaInv maxSize st →
      cmetaInv maxSize (applyCMetaOps maxSize st ops) := by
  induction ops with
  | nil => intro st h; exact h
  | cons op rest ih =>
    intro st h
    simpa [applyCMetaOps] using ih (applyCMetaOp maxSize st op)
      (cmetaInv_op maxSize st op h)

lemma histLookup_append_of_ne {l : List (Int × PreviousVotePB)} {t : Int}
    (v : PreviousVotePB) (h : ∀ x ∈ l, x.1 ≠ t) :
    histLookup t (l ++ [(t, v)]) = some v := by
  induction l with
  | nil => simp [histLookup]
  | cons p rest ih =>
    obtain ⟨k, w⟩ := p
    have hk : k ≠ t := h (k, w) (List.mem_cons_self _ _)
    simp only [List.cons_append, histLookup, if_neg hk]
    exact ih fun x hx => h x (List.mem_cons_of_mem _ hx)

lemma c9Inv_op (maxSize : Nat) (hmax : 1 ≤ maxSize) (st : ConsensusMetadata)
    (op : CMetaOp) (hop : c9OpOk st op = true) (h : c9Inv st) :
    c9Inv (applyCMetaOp maxSize st op) := by
  obtain ⟨hs, hlkl, hk1, _⟩ := h
  cases op with
  | clearVotedFor =>
    refine ⟨hs, hlkl, hk1, ?_⟩
    intro u hu
    simp [applyCMetaOp, ConsensusMetadata.clear_voted_for] at hu
  | setCurrentTerm t' =>
    have hnone : st.voted_for = none := by
      simpa [c9OpOk, Option.isNone_iff_eq_none] using hop
    refine ⟨hs, hlkl, hk1, ?_⟩
    intro u hu
    rw [show (applyCMetaOp maxSize st (CMetaOp.setCurrentTerm t')).voted_for =
      st.voted_for from rfl, hnone] at hu
    exact absurd hu (by simp)
  | setVotedFor u =>
    simp only [c9OpOk, Bool.and_eq_true, decide_eq_true_eq] at hop
    obtain ⟨-, hop2⟩ := hop
    cases ht : st.current_term with
    | none => rw [ht] at hop2; simp at hop2
    | some t =>
      rw [ht] at hop2
      simp only [Bool.and_eq_true, decide_eq_true_eq, List.all_eq_true] at hop2
      obtain ⟨ht1, hall⟩ := hop2
      have hall' : ∀ x ∈ st.previous_vote_history, x.1 < t := fun x hx => hall x hx
      -- the new entry lands at the end of the sorted history
      have hins : insertIfNotPresent st.previous_vote_history t ⟨u, t⟩ =
          st.previous_vote_history ++ [(t, ⟨u, t⟩)] :=
        insertIfNotPresent_append t ⟨u, t⟩ hall'
      have hgt0 : ∀ x ∈ st.previous_vote_history ++ [(t, ⟨u, t⟩)],
          st.last_known_leader.election_term < x.1 := by
        intro x hx
        rw [hlkl]
        rcases List.mem_append.mp hx with hx' | hx'
        · have := hk1 x hx'
          omega
        · simp only [List.mem_singleton] at hx'
          subst hx'
          omega
      have hsorted1 : keysSorted (st.previous_vote_history ++ [(t, ⟨u, t⟩)]) := by
        rw [← hins]
        exact insertIfNotPresent_sorted hs _ _
      simp only [applyCMetaOp, ConsensusMetadata.set_voted_for,
        ConsensusMetadata.populate_previous_vote_history, pruneToCapacity]
      rw [ht]
      simp only [Option.getD_some]
      rw [hins, pruneUpToLeaderTerm_id hgt0]
      by_cases hcap : maxSize < (st.previous_vote_history ++ [(t, (⟨u, t⟩ : PreviousVotePB))]).length
      · rw [if_pos hcap]
        cases hl : st.previous_vote_history with
        | nil =>
          rw [hl] at hcap
          simp at hcap
          omega
        | cons hd tl =>
          obtain ⟨k0, v0⟩ := hd
          dsimp only
          refine ⟨?_, hlkl, ?_, ?_⟩
          · have hsx := hsorted1
            rw [hl, List.cons_append] at hsx
            simp only [keysSorted, List.pairwise_cons] at hsx
            exact hsx.2
          · intro e he
            have hmem : e ∈ st.previous_vote_history ++ [(t, (⟨u, t⟩ : PreviousVotePB))] := by
              rw [hl, List.cons_append]
              exact List.mem_cons_of_mem _ he
            rcases List.mem_append.mp hmem with hx' | hx'
            · exact hk1 e hx'
            · simp only [List.mem_singleton] at hx'
              subst hx'
              exact ht1
          · intro u' hu'
            have huu : u' = u := by
              simpa using hu'.symm
            subst huu
            refine ⟨t, rfl, ?_⟩
            refine histLookup_append_of_ne _ ?_
            intro x hx
            have hmem : x ∈ st.previous_vote_history := by
              rw [hl]
              exact List.mem_cons_of_mem _ hx
            exact ne_of_lt (hall' x hmem)
      · rw [if_neg hcap]
        dsimp only
        refine ⟨hsorted1, hlkl, ?_, ?_⟩
        · intro e he
          rcases List.mem_append.mp he with hx' | hx'
          · exact hk1 e hx'
          · simp only [List.mem_singleton] at hx'
            subst hx'
            exact ht1
        · intro u' hu'
          have huu : u' = u := by simpa using hu'.symm
          subst huu
          refine ⟨t, rfl, ?_⟩
          exact histLookup_append_of_ne _ fun x hx => ne_of_lt (hall' x hx)

lemma c9Inv_run (maxSize : Nat) (hmax : 1 ≤ maxSize) (ops : List CMetaOp) :
    ∀ st : ConsensusMetadata, c9Inv st → c9ValidOps maxSize st ops = true →
      c9Inv (applyCMetaOps maxSize st ops) := by
  induction ops with
  | nil => intro st h _; exact h
  | cons op rest ih =>
    intro st h hv
    simp only [c9ValidOps, Bool.and_eq_true] at hv
    simpa [applyCMetaOps] using ih (applyCMetaOp maxSize st op)
      (c9Inv_op maxSize hmax st op hv.1 h) hv.2

/-- C1: after any sequence of `set_current_term` and `set_voted_for` calls
(each `set_voted_for` with a non-empty uuid while a current term is set),
`previous_vote_history` has size at most `VOTE_HISTORY_MAX_SIZE` and
contains no key less than or equal to `last_known_leader`'s election
term. -/
theorem vote_history_bound (maxSize : Nat) (ops : List CMetaOp)
    (hv : c1ValidOps maxSize initCMeta ops = true) :
    (applyCMetaOps maxSize initCMeta ops).previous_vote_history.length ≤ maxSize ∧
    ∀ e ∈ (applyCMetaOps maxSize initCMeta ops).previous_vote_history,
      ¬(e.1 ≤ (applyCMetaOps maxSize initCMeta ops).last_known_leader.election_term) := by
  have h := cmetaInv_run maxSize ops initCMeta
    ⟨List.Pairwise.nil, Nat.zero_le _, by intro e he; simp [initCMeta] at he⟩
  refine ⟨h.2.1, ?_⟩
  intro e he
  have := h.2.2 e he
  omega

theorem vote_history_bound_witness :
    (applyCMetaOps 3 initCMeta
      [CMetaOp.setCurrentTerm 5, CMetaOp.setVotedFor "a"]).previous_vote_history.length ≤ 3 :=
  (vote_history_bound 3 [CMetaOp.setCurrentTerm 5, CMetaOp.setVotedFor "a"] (by decide)).1

/-- C3 counterexample: `set_current_term` writes unconditionally (only a
debug `DCHECK` guards `term ≥ kMinimumTerm`), so a second call with the
smaller argument 3 (still at least the minimum term) makes the observable
`current_term` drop from 5 to 3. -/
theorem current_term_monotonic_cex :
    (applyCMetaOps 3 initCMeta [CMetaOp.setCurrentTerm 5]).current_term = some 5 ∧
    (applyCMetaOps 3 initCMeta
      [CMetaOp.setCurrentTerm 5, CMetaOp.setCurrentTerm 3]).current_term = some 3 ∧
    kMinimumTerm ≤ 3 ∧ (3 : Int) < 5 := by
  refine ⟨rfl, rfl, by decide, by decide⟩

/-- C3 amended: `current_term` is last-write-wins, not monotone — after any
operation sequence ending in `set_current_term t`, the observable
`current_term` is exactly `t`, whether or not `t` is smaller than an
earlier value; monotonicity is a caller obligation the setter does not
enforce. -/
theorem current_term_last_write_wins (maxSize : Nat) (st : ConsensusMetadata)
    (ops : List CMetaOp) (t : Int) :
    (applyCMetaOps maxSize st
      (ops ++ [CMetaOp.setCurrentTerm t])).current_term = some t := by
  simp [applyCMetaOps, List.foldl_append, applyCMetaOp,
    ConsensusMetadata.set_current_term]

/-- C4: the S2 scenario with `VOTE_HISTORY_MAX_SIZE = 3` ends with history
keys `[6, 7, 8]` and `last_pruned_term = 5`; and in general, whenever the
history still exceeds the capacity after insertion and leader-term pruning,
the smallest-key entry is erased and `last_pruned_term` becomes that key. -/
theorem vote_history_capacity_prune :
    ((applyCMetaOps 3 initCMeta
        [CMetaOp.setCurrentTerm 5, CMetaOp.setVotedFor "a",
         CMetaOp.setCurrentTerm 6, CMetaOp.setVotedFor "b",
         CMetaOp.setCurrentTerm 7, CMetaOp.setVotedFor "c",
         CMetaOp.setCurrentTerm 8, CMetaOp.setVotedFor "d"]).previous_vote_history.map
          Prod.fst = [6, 7, 8] ∧
      (applyCMetaOps 3 initCMeta
        [CMetaOp.setCurrentTerm 5, CMetaOp.setVotedFor "a",
         CMetaOp.setCurrentTerm 6, CMetaOp.setVotedFor "b",
         CMetaOp.setCurrentTerm 7, CMetaOp.setVotedFor "c",
         CMetaOp.setCurrentTerm 8, CMetaOp.setVotedFor "d"]).last_pruned_term = 5) ∧
    ∀ (maxSize : Nat) (st : ConsensusMetadata) (pv : PreviousVotePB),
      keysSorted st.previous_vote_history →
      maxSize < (pruneUpToLeaderTerm
          (insertIfNotPresent st.previous_vote_history pv.election_term pv)
          st.last_known_leader.election_term st.last_pruned_term).1.length →
      ∃ k v rest,
        (pruneUpToLeaderTerm
          (insertIfNotPresent st.previous_vote_history pv.election_term pv)
          st.last_known_leader.election_term st.last_pruned_term).1 = (k, v) :: rest ∧
        (st.populate_previous_vote_history maxSize pv).previous_vote_history = rest ∧
        (st.populate_previous_vote_history maxSize pv).last_pruned_term = k ∧
        ∀ e ∈ (pruneUpToLeaderTerm
          (insertIfNotPresent st.previous_vote_history pv.election_term pv)
          st.last_known_leader.election_term st.last_pruned_term).1, k ≤ e.1 := by
  constructor
  · exact ⟨by decide, by decide⟩
  · intro maxSize st pv hs hcap
    have hs2 : keysSorted (pruneUpToLeaderTerm
        (insertIfNotPresent st.previous_vote_history pv.election_term pv)
        st.last_known_leader.election_term st.last_pruned_term).1 :=
      pruneUpToLeaderTerm_sorted (insertIfNotPresent_sorted hs _ _)
    cases hne : (pruneUpToLeaderTerm
        (insertIfNotPresent st.previous_vote_history pv.election_term pv)
        st.last_known_leader.election_term st.last_pruned_term).1 with
    | nil => rw [hne] at hcap; simp at hcap
    | cons hd rest =>
      obtain ⟨k, v⟩ := hd
      rw [hne] at hs2
      simp only [keysSorted, List.pairwise_cons] at hs2
      refine ⟨k, v, rest, rfl, ?_, ?_, ?_⟩
      · simp only [ConsensusMetadata.populate_previous_vote_history, pruneToCapacity]
        rw [if_pos hcap, hne]
      · simp only [ConsensusMetadata.populate_previous_vote_history, pruneToCapacity]
        rw [if_pos hcap, hne]
      · intro e he
        rcases List.mem_cons.mp he with rfl | he'
        · exact le_refl _
        · exact le_of_lt (hs2.1 e he')

theorem vote_history_capacity_prune_witness :
    ∃ k v rest,
      (pruneUpToLeaderTerm
        (insertIfNotPresent c4WitnessState.previous_vote_history
          (PreviousVotePB.mk "c" 3).election_term (PreviousVotePB.mk "c" 3))
        c4WitnessState.last_known_leader.election_term
        c4WitnessState.last_pruned_term).1 = (k, v) :: rest ∧
      (c4WitnessState.populate_previous_vote_history 1
        (PreviousVotePB.mk "c" 3)).previous_vote_history = rest ∧
      (c4WitnessState.populate_previous_vote_history 1
        (PreviousVotePB.mk "c" 3)).last_pruned_term = k ∧
      ∀ e ∈ (pruneUpToLeaderTerm
        (insertIfNotPresent c4WitnessState.previous_vote_history
          (PreviousVotePB.mk "c" 3).election_term (PreviousVotePB.mk "c" 3))
        c4WitnessState.last_known_leader.election_term
        c4WitnessState.last_pruned_term).1, k ≤ e.1 :=
  vote_history_capacity_prune.2 1 c4WitnessState (PreviousVotePB.mk "c" 3)
    (by unfold keysSorted; decide) (by decide)

/-- C9 counterexample: voting twice in the same term breaks the claimed
invariant.  After `set_current_term 5; set_voted_for "a"; set_voted_for "b"`
the state has `voted_for = "b"`, but `InsertIfNotPresent` kept the first
entry, so the history entry at the current term 5 still names candidate
"a". -/
theorem voted_for_history_cex :
    (applyCMetaOps 3 initCMeta
      [CMetaOp.setCurrentTerm 5, CMetaOp.setVotedFor "a",
       CMetaOp.setVotedFor "b"]).voted_for = some "b" ∧
    (applyCMetaOps 3 initCMeta
      [CMetaOp.setCurrentTerm 5, CMetaOp.setVotedFor "a",
       CMetaOp.setVotedFor "b"]).current_term = some 5 ∧
    histLookup 5 (applyCMetaOps 3 initCMeta
      [CMetaOp.setCurrentTerm 5, CMetaOp.setVotedFor "a",
       CMetaOp.setVotedFor "b"]).previous_vote_history =
        some (PreviousVotePB.mk "a" 5) ∧
    ("a" : String) ≠ "b" := by
  refine ⟨by decide, by decide, by decide, by decide⟩

/-- C9 amended: the voted-for/history correspondence holds at every state
reached under the Raft voting discipline — `set_current_term` only with the
vote cleared, `set_voted_for` with a non-empty uuid at a set current term
that is positive and strictly greater than every history key (so each term
is voted at most once), `clear_voted_for` unrestricted — provided
`VOTE_HISTORY_MAX_SIZE ≥ 1`.  It fails for unrestricted sequences
(see the counterexample: re-voting in the same term). -/
theorem voted_for_history_amended (maxSize : Nat) (hmax : 1 ≤ maxSize)
    (ops : List CMetaOp) (hv : c9ValidOps maxSize initCMeta ops = true)
    (u : String)
    (hu : (applyCMetaOps maxSize initCMeta ops).voted_for = some u) :
    ∃ t, (applyCMetaOps maxSize initCMeta ops).current_term = some t ∧
      histLookup t (applyCMetaOps maxSize initCMeta ops).previous_vote_history =
        some ⟨u, t⟩ := by
  have h := c9Inv_run maxSize hmax ops initCMeta
    ⟨List.Pairwise.nil, rfl, by intro e he; simp [initCMeta] at he,
      by intro u' hu'; simp [initCMeta] at hu'⟩ hv
  exact h.2.2.2 u hu

theorem voted_for_history_amended_witness :
    ∃ t, (applyCMetaOps 1 initCMeta
        [CMetaOp.setCurrentTerm 5, CMetaOp.setVotedFor "a"]).current_term = some t ∧
      histLookup t (applyCMetaOps 1 initCMeta
        [CMetaOp.setCurrentTerm 5, CMetaOp.setVotedFor "a"]).previous_vote_history =
          some ⟨"a", t⟩ :=
  voted_for_history_amended 1 (by decide)
    [CMetaOp.setCurrentTerm 5, CMetaOp.setVotedFor "a"] (by decide) "a" (by decide)

/-- C5: `MergeCommittedConsensusStatePB` raises the local term to the
remote term and clears `voted_for` exactly when the remote term is strictly
greater; in every case it empties `leader_uuid`, adopts the remote
committed config, and clears any pending config. -/
theorem merge_committed_state_spec (st : ConsensusMetadata)
    (cstate : ConsensusStatePB) :
    ((st.MergeCommittedConsensusStatePB cstate).leader_uuid = "" ∧
     (st.MergeCommittedConsensusStatePB cstate).committed_config =
        some cstate.committed_config ∧
     (st.MergeCommittedConsensusStatePB cstate).pending_config = none) ∧
    (st.current_term.getD 0 < cstate.current_term →
      (st.MergeCommittedConsensusStatePB cstate).current_term =
          some cstate.current_term ∧
      (st.MergeCommittedConsensusStatePB cstate).voted_for = none) ∧
    (¬st.current_term.getD 0 < cstate.current_term →
      (st.MergeCommittedConsensusStatePB cstate).current_term = st.current_term ∧
      (st.MergeCommittedConsensusStatePB cstate).voted_for = st.voted_for) := by
  by_cases hlt : st.current_term.getD 0 < cstate.current_term <;>
    simp [ConsensusMetadata.MergeCommittedConsensusStatePB, hlt,
      ConsensusMetadata.set_current_term, ConsensusMetadata.clear_voted_for,
      ConsensusMetadata.set_leader_uuid, ConsensusMetadata.set_committed_config,
      ConsensusMetadata.clear_pending_config]

theorem merge_committed_state_spec_witness :
    (({ initCMeta with current_term := some 3, voted_for := some "x" } :
        ConsensusMetadata).MergeCommittedConsensusStatePB
      ⟨5, "", ⟨7, ["p1", "p2"]⟩, none⟩).current_term = some 5 ∧
    (({ initCMeta with current_term := some 3, voted_for := some "x" } :
        ConsensusMetadata).MergeCommittedConsensusStatePB
      ⟨5, "", ⟨7, ["p1", "p2"]⟩, none⟩).voted_for = none :=
  (merge_committed_state_spec
    { initCMeta with current_term := some 3, voted_for := some "x" }
    ⟨5, "", ⟨7, ["p1", "p2"]⟩, none⟩).2.1 (by decide)

/-- C10: merging a state whose term is not newer leaves `current_term` and
`voted_for` (in particular an existing vote) untouched, while still
clearing `leader_uuid`, replacing the committed config and clearing any
pending config. -/
theorem merge_frame_effect (st : ConsensusMetadata) (cstate : ConsensusStatePB)
    (t : Int) (h1 : st.current_term = some t) (h2 : cstate.current_term ≤ t) :
    (st.MergeCommittedConsensusStatePB cstate).current_term = st.current_term ∧
    (st.MergeCommittedConsensusStatePB cstate).voted_for = st.voted_for ∧
    (st.MergeCommittedConsensusStatePB cstate).leader_uuid = "" ∧
    (st.MergeCommittedConsensusStatePB cstate).committed_config =
      some cstate.committed_config ∧
    (st.MergeCommittedConsensusStatePB cstate).pending_config = none := by
  have hlt : ¬st.current_term.getD 0 < cstate.current_term := by
    rw [h1]
    simp only [Option.getD_some]
    omega
  simp [ConsensusMetadata.MergeCommittedConsensusStatePB, hlt,
    ConsensusMetadata.set_leader_uuid, ConsensusMetadata.set_committed_config,
    ConsensusMetadata.clear_pending_config]

theorem merge_frame_effect_witness :
    (c10WitnessState.MergeCommittedConsensusStatePB
      ⟨3, "", ⟨2, ["q"]⟩, none⟩).current_term = some 5 ∧
    (c10WitnessState.MergeCommittedConsensusStatePB
      ⟨3, "", ⟨2, ["q"]⟩, none⟩).voted_for = some "x" ∧
    (c10WitnessState.MergeCommittedConsensusStatePB
      ⟨3, "", ⟨2, ["q"]⟩, none⟩).leader_uuid = "" ∧
    (c10WitnessState.MergeCommittedConsensusStatePB
      ⟨3, "", ⟨2, ["q"]⟩, none⟩).committed_config = some ⟨2, ["q"]⟩ ∧
    (c10WitnessState.MergeCommittedConsensusStatePB
      ⟨3, "", ⟨2, ["q"]⟩, none⟩).pending_config = none :=
  merge_frame_effect c10WitnessState ⟨3, "", ⟨2, ["q"]⟩, none⟩ 5 rfl (by decide)

/-- C6: `sync_last_known_leader` returns OK without flushing or touching the
state when `leader_uuid` is empty, and likewise when a compare-and-swap term
is supplied and differs from the current term; otherwise it sets
`last_known_leader = {leader_uuid, current_term}` and performs the flush,
returning the flush's status. -/
theorem sync_last_known_leader_spec (st : ConsensusMetadata)
    (flush_status : Status) (cas_term : Option Int) :
    (st.leader_uuid = "" →
      st.sync_last_known_leader flush_status cas_term = (Status.ok, st)) ∧
    (∀ t, st.leader_uuid ≠ "" → cas_term = some t →
      st.current_term.getD 0 ≠ t →
      st.sync_last_known_leader flush_status cas_term = (Status.ok, st)) ∧
    (st.leader_uuid ≠ "" →
      (cas_term = none ∨ cas_term = some (st.current_term.getD 0)) →
      st.sync_last_known_leader flush_status cas_term =
        (flush_status,
          { st with last_known_leader :=
              ⟨st.leader_uuid, st.current_term.getD 0⟩ })) := by
  refine ⟨?_, ?_, ?_⟩
  · intro h
    simp [ConsensusMetadata.sync_last_known_leader, h]
  · intro t h hc hne
    subst hc
    simp [ConsensusMetadata.sync_last_known_leader, h, hne]
  · intro h hc
    rcases hc with rfl | rfl
    · simp [ConsensusMetadata.sync_last_known_leader, h]
    · simp [ConsensusMetadata.sync_last_known_leader, h]

theorem sync_last_known_leader_spec_witness :
    c6WitnessState.sync_last_known_leader (Status.ioError "disk gone") none =
      (Status.ioError "disk gone",
        { c6WitnessState with last_known_leader := ⟨"L", 4⟩ }) ∧
    c6WitnessState.sync_last_known_leader (Status.ioError "disk gone")
        (some 9) = (Status.ok, c6WitnessState) :=
  ⟨(sync_last_known_leader_spec c6WitnessState (Status.ioError "disk gone")
      none).2.2 (by decide) (Or.inl rfl),
   (sync_last_known_leader_spec c6WitnessState (Status.ioError "disk gone")
      (some 9)).2.1 9 (by decide) rfl (by decide)⟩

/-- C7: `appendMessage` fails `InvalidArgument` on a null message and
`IllegalState` on an index gap, leaving every buffer field unchanged in
both cases; an append at exactly `last_buffered + 1` returns OK and makes
that index the new `last_buffered`. -/
theorem append_message_errors (st : BufferData) (m : Option ReplicateMsg) :
    (m = none →
      st.appendMessage m = (Status.invalidArgument "Null new message", st)) ∧
    (∀ msg, m = some msg → msg.id.index ≠ st.last_buffered + 1 →
      st.appendMessage m =
        (Status.illegalState "New message does not match buffer", st)) ∧
    (∀ msg, m = some msg → msg.id.index = st.last_buffered + 1 →
      (st.appendMessage m).1 = Status.ok ∧
      (st.appendMessage m).2.last_buffered = msg.id.index) := by
  refine ⟨?_, ?_, ?_⟩
  · rintro rfl
    exact appendMessage_none st
  · rintro msg rfl hgap
    exact appendMessage_gap st msg hgap
  · rintro msg rfl hok
    rw [appendMessage_ok st msg hok]
    constructor
    · rfl
    · by_cases he : st.msg_buffer_refs.isEmpty <;> simp [he]

theorem append_message_errors_witness :
    ((initBufferData.resetBuffer false 10).appendMessage
        (some ⟨⟨1, 11⟩⟩)).1 = Status.ok ∧
    (initBufferData.resetBuffer false 10).appendMessage (some ⟨⟨1, 13⟩⟩) =
      (Status.illegalState "New message does not match buffer",
        initBufferData.resetBuffer false 10) ∧
    (initBufferData.resetBuffer false 10).appendMessage none =
      (Status.invalidArgument "Null new message",
        initBufferData.resetBuffer false 10) :=
  ⟨((append_message_errors (initBufferData.resetBuffer false 10)
      (some ⟨⟨1, 11⟩⟩)).2.2 ⟨⟨1, 11⟩⟩ rfl (by decide)).1,
   (append_message_errors (initBufferData.resetBuffer false 10)
      (some ⟨⟨1, 13⟩⟩)).2.1 ⟨⟨1, 13⟩⟩ rfl (by decide),
   (append_message_errors (initBufferData.resetBuffer false 10) none).1 rfl⟩

/-- C8: `readFromCache` consults the log cache only at
`(last_buffered, min(max_buffer_fill_size_bytes,
max(consensus_max_batch_size_bytes − bytes_buffered, 0)))`; a status that
is neither OK nor Incomplete resets the buffer before the status is
returned; Incomplete is returned with the buffer untouched (the cache
appends nothing on failure); an OK read that stopped early surfaces a
Continue status. -/
theorem read_from_cache_spec (max_fill max_batch : Int) (st : BufferData)
    (ctx : ReadContext) :
    (∀ c1 c2 : Int → Int → ReadOpsResult,
      c1 st.last_buffered (min max_fill (max (max_batch - st.bytes_buffered) 0)) =
        c2 st.last_buffered (min max_fill (max (max_batch - st.bytes_buffered) 0)) →
      st.readFromCache max_fill max_batch ctx c1 =
        st.readFromCache max_fill max_batch ctx c2) ∧
    (∀ s : ReadOpsResult, s.status.isOk = false → s.status.isIncomplete = false →
      st.readFromCacheResult ctx s = (s.status, st.resetBufferDefault)) ∧
    (∀ s : ReadOpsResult, s.status.isIncomplete = true → s.msgs = [] →
      st.readFromCacheResult ctx s = (s.status, st)) ∧
    (∀ s : ReadOpsResult, s.status.isOk = true → s.stopped_early = true →
      (st.readFromCacheResult ctx s).1 =
        Status.continueRead "Stopped before reading all ops from LogCache") := by
  refine ⟨?_, ?_, ?_, ?_⟩
  · intro c1 c2 h
    simp only [BufferData.readFromCache, fillSize]
    rw [h]
  · intro s h1 h2
    rw [readFromCacheResult_err st ctx s h1 h2]
    rfl
  · intro s h1 hm
    rw [readFromCacheResult_incomplete st ctx s h1, hm]
    simp
  · intro s h1 h2
    rw [readFromCacheResult_ok st ctx s h1]
    simp [h2]

theorem read_from_cache_spec_witness :
    (initBufferData.resetBuffer false 10).readFromCacheResult
        ⟨"p", "h", 7, false⟩
        ⟨[], ⟨0, 0⟩, false, Status.incomplete "pending append"⟩ =
      (Status.incomplete "pending append", initBufferData.resetBuffer false 10) ∧
    (initBufferData.resetBuffer false 10).readFromCacheResult
        ⟨"p", "h", 7, false⟩
        ⟨[], ⟨0, 0⟩, false, Status.notFound "gc"⟩ =
      (Status.notFound "gc",
        (initBufferData.resetBuffer false 10).resetBufferDefault) :=
  ⟨(read_from_cache_spec 2097152 1048576 (initBufferData.resetBuffer false 10)
      ⟨"p", "h", 7, false⟩).2.2.1
      ⟨[], ⟨0, 0⟩, false, Status.incomplete "pending append"⟩ rfl rfl,
   (read_from_cache_spec 2097152 1048576 (initBufferData.resetBuffer false 10)
      ⟨"p", "h", 7, false⟩).2.1
      ⟨[], ⟨0, 0⟩, false, Status.notFound "gc"⟩ rfl rfl⟩

/-- C2 counterexample: appending the first message into an empty buffer
anchors `preceding_opid` at that message's own id (the spec's §9 open
question), so with `last_buffered = 10` a single successful
`appendMessage` of the message at index 11 leaves a non-empty buffer
whose indices `[11]` are not the claimed range
`[preceding_opid.index + 1, last_buffered] = [12, 11] = []`. -/
theorem buffer_contiguity_cex :
    (applyBufOps (initBufferData.resetBuffer false 10)
      [BufOp.append (some ⟨⟨1, 11⟩⟩)]).msg_buffer_refs ≠ [] ∧
    validBufRun (initBufferData.resetBuffer false 10)
      [BufOp.append (some ⟨⟨1, 11⟩⟩)] = true ∧
    msgIndices (applyBufOps (initBufferData.resetBuffer false 10)
        [BufOp.append (some ⟨⟨1, 11⟩⟩)]).msg_buffer_refs ≠
      intRange ((applyBufOps (initBufferData.resetBuffer false 10)
          [BufOp.append (some ⟨⟨1, 11⟩⟩)]).preceding_opid.index + 1)
        (applyBufOps (initBufferData.resetBuffer false 10)
          [BufOp.append (some ⟨⟨1, 11⟩⟩)]).last_buffered := by
  refine ⟨by decide, by decide, by decide⟩

/-- C2 amended: after any valid interleaving of `appendMessage` and cache
reads from a freshly reset buffer, a non-empty buffer holds exactly one
gap-free, contiguous index range ending at `last_buffered`; its first index
is `preceding_opid.index + 1` when the buffer was seeded by a cache read,
but it is `preceding_opid.index` itself when the buffer was seeded by
`appendMessage` into an empty buffer (which sets `preceding_opid` to the
first message's own id). -/
theorem buffer_contiguity_amended (for_proxy : Bool) (last_index : Int)
    (ops : List BufOp)
    (hv : validBufRun (initBufferData.resetBuffer for_proxy last_index) ops = true)
    (hne : (applyBufOps (initBufferData.resetBuffer for_proxy last_index)
      ops).msg_buffer_refs ≠ []) :
    msgIndices (applyBufOps (initBufferData.resetBuffer for_proxy last_index)
        ops).msg_buffer_refs =
      intRange (applyBufOps (initBufferData.resetBuffer for_proxy last_index)
          ops).preceding_opid.index
        (applyBufOps (initBufferData.resetBuffer for_proxy last_index)
          ops).last_buffered ∨
    msgIndices (applyBufOps (initBufferData.resetBuffer for_proxy last_index)
        ops).msg_buffer_refs =
      intRange ((applyBufOps (initBufferData.resetBuffer for_proxy last_index)
          ops).preceding_opid.index + 1)
        (applyBufOps (initBufferData.resetBuffer for_proxy last_index)
          ops).last_buffered := by
  have h := bufInv_run ops (initBufferData.resetBuffer for_proxy last_index)
    (Or.inl rfl) hv
  rcases h with h0 | h | h
  · exact absurd h0 hne
  · exact Or.inl h
  · exact Or.inr h

theorem buffer_contiguity_amended_witness :
    msgIndices (applyBufOps (initBufferData.resetBuffer false 10)
        [BufOp.readCache ⟨"p", "h", 7, false⟩
          ⟨[⟨⟨1, 11⟩⟩, ⟨⟨1, 12⟩⟩], ⟨1, 10⟩, false, Status.ok⟩]).msg_buffer_refs =
      intRange (applyBufOps (initBufferData.resetBuffer false 10)
          [BufOp.readCache ⟨"p", "h", 7, false⟩
            ⟨[⟨⟨1, 11⟩⟩, ⟨⟨1, 12⟩⟩], ⟨1, 10⟩, false, Status.ok⟩]).preceding_opid.index
        (applyBufOps (initBufferData.resetBuffer false 10)
          [BufOp.readCache ⟨"p", "h", 7, false⟩
            ⟨[⟨⟨1, 11⟩⟩, ⟨⟨1, 12⟩⟩], ⟨1, 10⟩, false, Status.ok⟩]).last_buffered ∨
    msgIndices (applyBufOps (initBufferData.resetBuffer false 10)
        [BufOp.readCache ⟨"p", "h", 7, false⟩
          ⟨[⟨⟨1, 11⟩⟩, ⟨⟨1, 12⟩⟩], ⟨1, 10⟩, false, Status.ok⟩]).msg_buffer_refs =
      intRange ((applyBufOps (initBufferData.resetBuffer false 10)
          [BufOp.readCache ⟨"p", "h", 7, false⟩
            ⟨[⟨⟨1, 11⟩⟩, ⟨⟨1, 12⟩⟩], ⟨1, 10⟩, false,
              Status.ok⟩]).preceding_opid.index + 1)
        (applyBufOps (initBufferData.resetBuffer false 10)
          [BufOp.readCache ⟨"p", "h", 7, false⟩
            ⟨[⟨⟨1, 11⟩⟩, ⟨⟨1, 12⟩⟩], ⟨1, 10⟩, false, Status.ok⟩]).last_buffered :=
  buffer_contiguity_amended false 10
    [BufOp.readCache ⟨"p", "h", 7, false⟩
      ⟨[⟨⟨1, 11⟩⟩, ⟨⟨1, 12⟩⟩], ⟨1, 10⟩, false, Status.ok⟩]
    (by decide) (by decide)
